import Mathlib

set_option autoImplicit false
set_option linter.unusedVariables false

namespace Prefetch

/-- Strings are modelled as lists of characters (Go `string` values of the
image references, repository names and secrets). -/
abbrev Str := List Char

/-- Modelled from the spec: the credential record (§3) is decoded outside the
core source file; essential fields are `repository` (registry host + path
prefix), `username` and `password`.  In the Go source the three fields live
under `AdditionalProperties`; they are flattened here. -/
structure ContainerRegistryCredentials where
  repository : Str
  username : Str
  password : Str
deriving DecidableEq

/-- Modelled from the spec: the stage record (§3) comes from the external
manifest package; essential fields are `name`, `containerImage` and `when`
(the boolean-expression source string). -/
structure EstafetteStage where
  name : Str
  containerImage : Str
  when : Str
deriving DecidableEq

/-- Go `strings.Split(s, "/")`: splits `s` into the substrings separated by
the slash character; the empty string splits into `[[]]`. -/
def splitOnSlash : Str → List Str
  | [] => [[]]
  | c :: rest =>
    if c = '/' then [] :: splitOnSlash rest
    else
      match splitOnSlash rest with
      | [] => [[c]]
      | s :: ss => (c :: s) :: ss

/-- Go `strings.Join(parts, "/")`: interleaves a slash between the parts. -/
def joinSlash : List Str → Str
  | [] => []
  | [s] => s
  | s :: rest => s ++ '/' :: joinSlash rest

/-- The repository-prefix computation of `getCredentialsForContainers`
(src/main.go:127-128): split the image reference on `/`, drop the final
segment, rejoin with `/`. -/
def containerRepo (ci : Str) : Str :=
  joinSlash ((splitOnSlash ci).dropLast)

/-- Lookup in the credentials map, modelled as an association list with
unique keys (insertion order retained). -/
def mapLookup (k : Str) : List (Str × ContainerRegistryCredentials) → Option ContainerRegistryCredentials
  | [] => none
  | e :: m => if e.1 = k then some e.2 else mapLookup k m

/-- The image loop of `getCredentialsForContainers` (src/main.go:126-143),
threading the map being built: skip images whose repository prefix already
has an entry, otherwise take the first credential whose `repository` equals
the prefix and insert it under that credential's `repository` field. -/
def getCredGo (credentials : List ContainerRegistryCredentials) :
    List Str → List (Str × ContainerRegistryCredentials) → List (Str × ContainerRegistryCredentials)
  | [], m => m
  | ci :: rest, m =>
    if (mapLookup (containerRepo ci) m).isSome then
      getCredGo credentials rest m
    else
      match credentials.find? (fun c => decide (c.repository = containerRepo ci)) with
      | some credential => getCredGo credentials rest (m ++ [(credential.repository, credential)])
      | none => getCredGo credentials rest m

/-- The function `getCredentialsForContainers` (src/main.go:120-147); `none`
models a nil Go credential slice, for which the `credentials != nil` guard
skips the image loop and the freshly made empty map is returned. -/
def getCredentialsForContainers (credentials : Option (List ContainerRegistryCredentials))
    (containerImages : List Str) : List (Str × ContainerRegistryCredentials) :=
  match credentials with
  | none => []
  | some creds => getCredGo creds containerImages []

/-- Dynamic result values of the govaluate `Evaluate` call: a boolean or a
value of any other type. -/
inductive GoValue where
  | bool (b : Bool)
  | other
deriving DecidableEq

/-- The function `evaluateWhen` (src/main.go:237-255).  The govaluate
library calls are oracles: `newEvaluableExpression` models
`govaluate.NewEvaluableExpression` and `evaluateExpr` models
`expression.Evaluate` (which yields either an error or a dynamic value).
The result mirrors Go's `(result bool, err error)` pair, with `none` as the
nil error. -/
def evaluateWhen {Expr Params : Type} (newEvaluableExpression : Str → Except Str Expr)
    (evaluateExpr : Expr → Params → Except Str GoValue)
    (pipelineName input : Str) (parameters : Params) : Bool × Option Str :=
  if input = [] then (false, some ("When expression is empty".data))
  else
    match newEvaluableExpression input with
    | Except.error e => (false, some e)
    | Except.ok expression =>
      match evaluateExpr expression parameters with
      | Except.ok (GoValue.bool b) => (b, none)
      | _ => (false, some ("Result of evaluating when expression is not of type boolean".data))

/-- The stage-dedup loop of `main` (src/main.go:70-92): a stage is skipped
when its when-clause evaluation errors or yields false, and otherwise
appended unless a stage with the same `containerImage` was already added.
`evalW` gives each stage's when-clause evaluation outcome. -/
def dedupStagesGo (evalW : EstafetteStage → Bool × Option Str) :
    List EstafetteStage → List EstafetteStage → List EstafetteStage
  | [], dedupedStages => dedupedStages
  | p :: rest, dedupedStages =>
    if ((evalW p).2).isSome || !((evalW p).1) then
      dedupStagesGo evalW rest dedupedStages
    else if dedupedStages.any (fun d => decide (p.containerImage = d.containerImage)) then
      dedupStagesGo evalW rest dedupedStages
    else
      dedupStagesGo evalW rest (dedupedStages ++ [p])

/-- The stage selector: the dedup loop started from the empty list. -/
def dedupStages (evalW : EstafetteStage → Bool × Option Str)
    (stages : List EstafetteStage) : List EstafetteStage :=
  dedupStagesGo evalW stages []

/-- A stage is kept by the selector's condition test exactly when the
when-clause evaluation returned no error and the result true
(src/main.go:74-77 negated skip condition). -/
def stageKept (r : Bool × Option Str) : Bool :=
  !(r.2.isSome || !r.1)

/-- Spec §4.2: among the stages that pass their condition, retain only the
first occurrence of each distinct `containerImage` value; `seen` holds the
image values already retained. -/
def keepFirstByImage (seen : List Str) : List EstafetteStage → List EstafetteStage
  | [] => []
  | p :: rest =>
    if p.containerImage ∈ seen then keepFirstByImage seen rest
    else p :: keepFirstByImage (p.containerImage :: seen) rest

/-- Observable external events of one run: a docker login attempt for a
repository, a docker pull of an image together with the external command's
outcome, normal process exit, and `log.Fatal` (non-zero) process exit. -/
inductive Event where
  | login (repository : Str)
  | pull (containerImage : Str) (success : Bool)
  | exitOk
  | fatalExit
deriving DecidableEq

/-- The login loop of `loginIfRequired` (src/main.go:191-213): sequential
docker login per resolved credential; `handleError` calls `log.Fatal` on the
first failing login (src/main.go:216-220), so the loop stops there.
`loginOk` is the oracle for the external docker login command's success; the
returned flag is false when a fatal exit happened. -/
def loginPhase (loginOk : ContainerRegistryCredentials → Bool) :
    List ContainerRegistryCredentials → List Event × Bool
  | [] => ([], true)
  | c :: rest =>
    if loginOk c then
      ((Event.login c.repository) :: (loginPhase loginOk rest).1, (loginPhase loginOk rest).2)
    else ([Event.login c.repository], false)

/-- The when-clause evaluation `main` performs for one stage
(src/main.go:74): `evaluateWhen(p.Name, p.When, getParameters())`, with the
context parameters supplied externally from the environment. -/
def mainWhenEval {Expr Params : Type} (newEvaluableExpression : Str → Except Str Expr)
    (evaluateExpr : Expr → Params → Except Str GoValue) (parameters : Params)
    (p : EstafetteStage) : Bool × Option Str :=
  evaluateWhen newEvaluableExpression evaluateExpr p.name p.when parameters

/-- The main flow after input decoding (src/main.go:63-118) as a trace of
external events: fatal exit when the decoded stage list is empty, otherwise
dedup the stages, resolve credentials for the deduped images, log in
sequentially (fatal on first failure), then pull every deduped image and
exit normally — the pull goroutines discard `runCommandExtended`'s error.
`iterOrder` models Go's unspecified map iteration order and `pullOk` the
external docker pull outcome. -/
def runMain {Expr Params : Type} (newEvaluableExpression : Str → Except Str Expr)
    (evaluateExpr : Expr → Params → Except Str GoValue) (parameters : Params)
    (loginOk : ContainerRegistryCredentials → Bool)
    (pullOk : Str → Bool)
    (iterOrder : List (Str × ContainerRegistryCredentials) → List ContainerRegistryCredentials)
    (credentials : Option (List ContainerRegistryCredentials))
    (stages : List EstafetteStage) : List Event :=
  if stages = [] then [Event.fatalExit]
  else
    let dedupedStages :=
      dedupStages (mainWhenEval newEvaluableExpression evaluateExpr parameters) stages
    let filteredCredentialsMap :=
      getCredentialsForContainers credentials (dedupedStages.map (fun p => p.containerImage))
    let loginResult := loginPhase loginOk (iterOrder filteredCredentialsMap)
    if loginResult.2 then
      loginResult.1
        ++ dedupedStages.map (fun p => Event.pull p.containerImage (pullOk p.containerImage))
        ++ [Event.exitOk]
    else
      loginResult.1 ++ [Event.fatalExit]

/-- Concrete stage fixture used by the closed witness theorems. -/
def exStage : EstafetteStage :=
  ⟨("s".data), ("r.io/t/app".data), ("w".data)⟩

/-- Concrete credential fixture used by the closed witness theorems. -/
def exCred : ContainerRegistryCredentials :=
  ⟨("r.io/t".data), ("u".data), ("p".data)⟩

theorem mapLookup_append_left {k : Str} {c : ContainerRegistryCredentials}
    {m₁ : List (Str × ContainerRegistryCredentials)}
    (m₂ : List (Str × ContainerRegistryCredentials))
    (h : mapLookup k m₁ = some c) : mapLookup k (m₁ ++ m₂) = some c := by
  induction m₁ with
  | nil => simp [mapLookup] at h
  | cons e m ih =>
    rw [mapLookup] at h
    rw [List.cons_append, mapLookup]
    split at h
    · next he => rw [if_pos he]; exact h
    · next he => rw [if_neg he]; exact ih h

theorem mapLookup_append_right {k : Str} {m₁ : List (Str × ContainerRegistryCredentials)}
    (m₂ : List (Str × ContainerRegistryCredentials))
    (h : mapLookup k m₁ = none) : mapLookup k (m₁ ++ m₂) = mapLookup k m₂ := by
  induction m₁ with
  | nil => simp
  | cons e m ih =>
    rw [mapLookup] at h
    rw [List.cons_append, mapLookup]
    split at h
    · exact absurd h (by simp)
    · next he => rw [if_neg he]; exact ih h

theorem mapLookup_eq_none_iff {k : Str} {m : List (Str × ContainerRegistryCredentials)} :
    mapLookup k m = none ↔ k ∉ m.map Prod.fst := by
  induction m with
  | nil => simp [mapLookup]
  | cons e m ih =>
    rw [mapLookup]
    by_cases he : e.1 = k
    · rw [if_pos he]
      constructor
      · intro h
        exact Option.noConfusion h
      · intro h
        have hk : k ∈ e.1 :: m.map Prod.fst := by
          rw [he]
          exact List.mem_cons_self _ _
        exact absurd hk h
    · simp only [if_neg he, ih, List.map_cons, List.mem_cons]
      constructor
      · intro h hk
        rcases hk with hk | hk
        · exact he hk.symm
        · exact h hk
      · intro h hk
        exact h (Or.inr hk)

theorem getCredGo_pres (creds : List ContainerRegistryCredentials) {p : Str}
    {c : ContainerRegistryCredentials} :
    ∀ (images : List Str) (m : List (Str × ContainerRegistryCredentials)),
      mapLookup p m = some c → mapLookup p (getCredGo creds images m) = some c := by
  intro images
  induction images with
  | nil => intro m h; exact h
  | cons ci rest ih =>
    intro m h
    rw [getCredGo]
    split
    · exact ih m h
    · split
      · next credential _ => exact ih _ (mapLookup_append_left _ h)
      · exact ih m h

theorem getCredGo_none_nofind (creds : List ContainerRegistryCredentials) {p : Str}
    (hfind : creds.find? (fun c => decide (c.repository = p)) = none) :
    ∀ (images : List Str) (m : List (Str × ContainerRegistryCredentials)),
      mapLookup p m = none → mapLookup p (getCredGo creds images m) = none := by
  intro images
  induction images with
  | nil => intro m h; exact h
  | cons ci rest ih =>
    intro m h
    rw [getCredGo]
    split
    · exact ih m h
    · split
      · next credential hc =>
        apply ih
        rw [mapLookup_append_right _ h, mapLookup]
        have hrepo : credential.repository = containerRepo ci := by
          have := List.find?_some hc
          simpa using this
        have hne : credential.repository ≠ p := by
          intro he
          rw [← he, hrepo] at hfind
          rw [hfind] at hc
          exact Option.noConfusion hc
        rw [if_neg hne]
        rfl
      · exact ih m h

theorem getCredGo_lookup (creds : List ContainerRegistryCredentials) {p : Str} :
    ∀ (images : List Str) (m : List (Str × ContainerRegistryCredentials)),
      p ∈ images.map containerRepo → mapLookup p m = none →
      mapLookup p (getCredGo creds images m)
        = creds.find? (fun c => decide (c.repository = p)) := by
  intro images
  induction images with
  | nil => intro m hp _; simp at hp
  | cons ci rest ih =>
    intro m hp hm
    rw [List.map_cons, List.mem_cons] at hp
    rw [getCredGo]
    by_cases hpci : p = containerRepo ci
    · rw [← hpci]
      split
      · next hsome => rw [hm] at hsome; simp at hsome
      · next hnone =>
        cases hc : creds.find? (fun c => decide (c.repository = p)) with
        | none => exact getCredGo_none_nofind creds hc rest m hm
        | some credential =>
          have hrepo : credential.repository = p := by
            have := List.find?_some hc
            simpa using this
          apply getCredGo_pres
          rw [mapLookup_append_right _ hm, mapLookup, if_pos hrepo]
    · have hp' : p ∈ rest.map containerRepo := by
        rcases hp with h | h
        · exact absurd h hpci
        · exact h
      split
      · exact ih m hp' hm
      · split
        · next credential hc =>
          apply ih _ hp'
          rw [mapLookup_append_right _ hm, mapLookup]
          have hrepo : credential.repository = containerRepo ci := by
            have := List.find?_some hc
            simpa using this
          rw [if_neg (fun he => hpci (hrepo ▸ he).symm)]
          rfl
        · exact ih m hp' hm

theorem getCredGo_mem (creds : List ContainerRegistryCredentials) :
    ∀ (images : List Str) (m : List (Str × ContainerRegistryCredentials))
      (e : Str × ContainerRegistryCredentials), e ∈ getCredGo creds images m →
      e ∈ m ∨ (e.1 ∈ images.map containerRepo ∧ e.2.repository = e.1) := by
  intro images
  induction images with
  | nil => intro m e h; exact Or.inl h
  | cons ci rest ih =>
    intro m e h
    rw [getCredGo] at h
    split at h
    · rcases ih m e h with h' | h'
      · exact Or.inl h'
      · right
        rw [List.map_cons]
        exact ⟨List.mem_cons_of_mem _ h'.1, h'.2⟩
    · split at h
      · next credential hc =>
        rcases ih _ e h with h' | h'
        · rw [List.mem_append] at h'
          rcases h' with h'' | h''
          · exact Or.inl h''
          · have he : e = (credential.repository, credential) := by simpa using h''
            right
            have hrepo : credential.repository = containerRepo ci := by
              have := List.find?_some hc
              simpa using this
            rw [he, List.map_cons]
            exact ⟨by rw [hrepo]; exact List.mem_cons_self _ _, rfl⟩
        · right
          rw [List.map_cons]
          exact ⟨List.mem_cons_of_mem _ h'.1, h'.2⟩
      · rcases ih m e h with h' | h'
        · exact Or.inl h'
        · right
          rw [List.map_cons]
          exact ⟨List.mem_cons_of_mem _ h'.1, h'.2⟩

theorem getCredGo_keys_nodup (creds : List ContainerRegistryCredentials) :
    ∀ (images : List Str) (m : List (Str × ContainerRegistryCredentials)),
      (m.map Prod.fst).Nodup → ((getCredGo creds images m).map Prod.fst).Nodup := by
  intro images
  induction images with
  | nil => intro m h; exact h
  | cons ci rest ih =>
    intro m h
    rw [getCredGo]
    split
    · exact ih m h
    · next hnone =>
      split
      · next credential hc =>
        apply ih
        rw [List.map_append]
        have hrepo : credential.repository = containerRepo ci := by
          have := List.find?_some hc
          simpa using this
        have hmem : containerRepo ci ∉ m.map Prod.fst := by
          apply mapLookup_eq_none_iff.1
          cases hl : mapLookup (containerRepo ci) m with
          | none => rfl
          | some c => rw [hl] at hnone; simp at hnone
        rw [List.nodup_append]
        refine ⟨h, List.nodup_singleton _, ?_⟩
        intro a ha hb
        have hab : a = containerRepo ci := by
          have : a = credential.repository := by simpa using hb
          rw [this, hrepo]
        rw [hab] at ha
        exact hmem ha
      · exact ih m h

/-- Claim C10: for every credential list (nil modelled as `none`) and image
list, every entry of the resolver's map has a key that is the computed
repository prefix of some input image and equals the `repository` field of
the credential stored under it; keys are pairwise distinct (at most one
entry per prefix); a nil credential list yields the empty map. -/
theorem getCredentialsForContainers_invariants
    (credentials : Option (List ContainerRegistryCredentials)) (images : List Str) :
    (∀ e ∈ getCredentialsForContainers credentials images,
        e.1 ∈ images.map containerRepo ∧ e.2.repository = e.1)
    ∧ ((getCredentialsForContainers credentials images).map Prod.fst).Nodup
    ∧ (credentials = none → getCredentialsForContainers credentials images = []) := by
  refine ⟨?_, ?_, ?_⟩
  · intro e he
    cases credentials with
    | none => exact absurd he (List.not_mem_nil e)
    | some creds =>
      rcases getCredGo_mem creds images [] e he with h | h
      · exact absurd h (List.not_mem_nil e)
      · exact h
  · cases credentials with
    | none => exact List.nodup_nil
    | some creds => exact getCredGo_keys_nodup creds images [] List.nodup_nil
  · intro h
    rw [h]
    rfl

/-- Claim C10 witness: at the concrete nil credential list the resolver map
is empty. -/
theorem getCredentialsForContainers_invariants_witness :
    getCredentialsForContainers none (("a/b".data) :: []) = [] :=
  (getCredentialsForContainers_invariants none (("a/b".data) :: [])).2.2 rfl

/-- Claim C2: for every credential list and image list, the lookup of the
resolver's map at a computed repository prefix `p` of some input image is
exactly the first credential in input-list order whose `repository` equals
`p` (`none` when no credential matches) — first-in-list wins for duplicated
repository values. -/
theorem getCredentialsForContainers_first_match
    (credentials : Option (List ContainerRegistryCredentials)) (images : List Str)
    (p : Str) (hp : p ∈ images.map containerRepo) :
    mapLookup p (getCredentialsForContainers credentials images)
      = (credentials.getD []).find? (fun c => decide (c.repository = p)) := by
  cases credentials with
  | none => rfl
  | some creds => exact getCredGo_lookup creds images [] hp rfl

/-- Claim C2 witness: two credentials share the repository value `r.io/t`;
for image `r.io/t/app:v1` the resolver selects the first of the two. -/
theorem getCredentialsForContainers_first_match_witness :
    (("r.io/t".data) ∈ (("r.io/t/app:v1".data) :: []).map containerRepo)
    ∧ mapLookup ("r.io/t".data)
        (getCredentialsForContainers
          (some (⟨("r.io/t".data), ("u1".data), ("p1".data)⟩ ::
                 ⟨("r.io/t".data), ("u2".data), ("p2".data)⟩ :: []))
          (("r.io/t/app:v1".data) :: []))
      = some ⟨("r.io/t".data), ("u1".data), ("p1".data)⟩ := by
  constructor
  · decide
  · rw [getCredentialsForContainers_first_match _ _ _ (by decide)]
    decide

theorem splitOnSlash_of_no_slash (s : Str) (h : '/' ∉ s) : splitOnSlash s = [s] := by
  induction s with
  | nil => rfl
  | cons c rest ih =>
    have hc : ¬(c = '/') := fun he => h (by rw [← he]; exact List.mem_cons_self c rest)
    have hr : '/' ∉ rest := fun hm => h (List.mem_cons_of_mem c hm)
    rw [splitOnSlash, if_neg hc, ih hr]

/-- Claim C6: the credential-lookup key of an image reference is obtained by
splitting on `/`, dropping the final segment and rejoining; a reference with
no `/` yields the empty prefix, which matches no credential whose stored
repository is multi-segment (contains a `/`). -/
theorem containerRepo_spec (ci : Str) :
    containerRepo ci = joinSlash ((splitOnSlash ci).dropLast)
    ∧ ('/' ∉ ci → containerRepo ci = [])
    ∧ (∀ creds : List ContainerRegistryCredentials, '/' ∉ ci →
        (∀ c ∈ creds, '/' ∈ c.repository) →
        creds.find? (fun c => decide (c.repository = containerRepo ci)) = none) := by
  have hempty : '/' ∉ ci → containerRepo ci = [] := by
    intro h
    rw [containerRepo, splitOnSlash_of_no_slash ci h]
    rfl
  refine ⟨rfl, hempty, ?_⟩
  intro creds h hcreds
  rw [List.find?_eq_none]
  intro c hc
  rw [hempty h]
  simp only [decide_eq_true_eq]
  intro he
  have h2 := hcreds c hc
  rw [he] at h2
  exact absurd h2 (List.not_mem_nil _)

/-- Claim C6 witness: the single-name reference `ubuntu` has the empty
repository prefix and matches no multi-segment credential. -/
theorem containerRepo_spec_witness :
    containerRepo ("ubuntu".data) = []
    ∧ List.find?
        (fun c : ContainerRegistryCredentials => decide (c.repository = containerRepo ("ubuntu".data)))
        ((⟨("r.io/t".data), ("u".data), ("p".data)⟩ : ContainerRegistryCredentials) :: [])
      = none := by
  constructor
  · exact (containerRepo_spec ("ubuntu".data)).2.1 (by decide)
  · exact (containerRepo_spec ("ubuntu".data)).2.2
      ((⟨("r.io/t".data), ("u".data), ("p".data)⟩ : ContainerRegistryCredentials) :: [])
      (by decide) (by decide)

theorem stageKept_eq (r : Bool × Option Str) :
    stageKept r = decide (r.2 = none ∧ r.1 = true) := by
  rcases r with ⟨b, o⟩
  cases o <;> cases b <;> rfl

theorem keepFirstByImage_congr :
    ∀ (l : List EstafetteStage) (s₁ s₂ : List Str), (∀ x, x ∈ s₁ ↔ x ∈ s₂) →
      keepFirstByImage s₁ l = keepFirstByImage s₂ l := by
  intro l
  induction l with
  | nil => intro s₁ s₂ _; rfl
  | cons p rest ih =>
    intro s₁ s₂ h
    rw [keepFirstByImage, keepFirstByImage]
    by_cases hm : p.containerImage ∈ s₁
    · rw [if_pos hm, if_pos ((h _).1 hm)]
      exact ih s₁ s₂ h
    · rw [if_neg hm, if_neg (fun hx => hm ((h _).2 hx))]
      have := ih (p.containerImage :: s₁) (p.containerImage :: s₂)
        (by intro x; rw [List.mem_cons, List.mem_cons, h x])
      rw [this]

theorem dedupStagesGo_eq (evalW : EstafetteStage → Bool × Option Str) :
    ∀ (l acc : List EstafetteStage),
      dedupStagesGo evalW l acc
        = acc ++ keepFirstByImage (acc.map (fun p => p.containerImage))
            (l.filter (fun p => stageKept (evalW p))) := by
  intro l
  induction l with
  | nil => intro acc; simp [dedupStagesGo, keepFirstByImage]
  | cons p rest ih =>
    intro acc
    rw [dedupStagesGo]
    by_cases hskip : (((evalW p).2).isSome || !((evalW p).1)) = true
    · rw [if_pos hskip]
      have hkept : stageKept (evalW p) = false := by
        rw [stageKept, hskip]
        rfl
      have hfc : List.filter (fun q => stageKept (evalW q)) (p :: rest)
          = List.filter (fun q => stageKept (evalW q)) rest := by
        rw [List.filter_cons]
        simp [hkept]
      rw [hfc]
      exact ih acc
    · rw [if_neg hskip]
      have hkept : stageKept (evalW p) = true := by
        cases hE : (((evalW p).2).isSome || !((evalW p).1)) with
        | true => exact absurd hE hskip
        | false => rw [stageKept, hE]; rfl
      have hfc : List.filter (fun q => stageKept (evalW q)) (p :: rest)
          = p :: List.filter (fun q => stageKept (evalW q)) rest := by
        rw [List.filter_cons]
        simp [hkept]
      rw [hfc]
      by_cases hmem : acc.any (fun d => decide (p.containerImage = d.containerImage)) = true
      · rw [if_pos hmem]
        have hin : p.containerImage ∈ acc.map (fun q => q.containerImage) := by
          rw [List.any_eq_true] at hmem
          rcases hmem with ⟨d, hd, hpd⟩
          rw [List.mem_map]
          have hdp : p.containerImage = d.containerImage := by simpa using hpd
          exact ⟨d, hd, hdp.symm⟩
        rw [keepFirstByImage, if_pos hin]
        exact ih acc
      · rw [if_neg hmem]
        have hnin : p.containerImage ∉ acc.map (fun q => q.containerImage) := by
          intro hx
          apply hmem
          rw [List.mem_map] at hx
          rcases hx with ⟨d, hd, hdp⟩
          rw [List.any_eq_true]
          exact ⟨d, hd, by simpa using hdp.symm⟩
        rw [keepFirstByImage, if_neg hnin, ih (acc ++ [p])]
        rw [List.map_append, List.append_assoc]
        simp only [List.map_cons, List.map_nil, List.singleton_append]
        have hcongr := keepFirstByImage_congr (rest.filter (fun q => stageKept (evalW q)))
          (acc.map (fun q => q.containerImage) ++ [p.containerImage])
          (p.containerImage :: acc.map (fun q => q.containerImage))
          (by intro x; rw [List.mem_append, List.mem_singleton, List.mem_cons, or_comm])
        rw [hcongr]

theorem keepFirstByImage_subset :
    ∀ (l : List EstafetteStage) (seen : List Str) (p : EstafetteStage),
      p ∈ keepFirstByImage seen l → p ∈ l := by
  intro l
  induction l with
  | nil => intro seen p h; exact absurd h (List.not_mem_nil p)
  | cons q rest ih =>
    intro seen p h
    rw [keepFirstByImage] at h
    split at h
    · exact List.mem_cons_of_mem q (ih _ p h)
    · rw [List.mem_cons] at h
      rcases h with h | h
      · rw [h]; exact List.mem_cons_self q rest
      · exact List.mem_cons_of_mem q (ih _ p h)

theorem keepFirstByImage_images :
    ∀ (l : List EstafetteStage) (seen : List Str),
      ((keepFirstByImage seen l).map (fun p => p.containerImage)).Nodup
      ∧ (∀ x ∈ (keepFirstByImage seen l).map (fun p => p.containerImage), x ∉ seen) := by
  intro l
  induction l with
  | nil => intro seen; exact ⟨List.nodup_nil, by intro x hx; exact absurd hx (List.not_mem_nil x)⟩
  | cons p rest ih =>
    intro seen
    rw [keepFirstByImage]
    split
    · exact ih seen
    · next hnin =>
      rw [List.map_cons]
      rcases ih (p.containerImage :: seen) with ⟨hnd, havoid⟩
      constructor
      · rw [List.nodup_cons]
        refine ⟨?_, hnd⟩
        intro hx
        exact havoid _ hx (List.mem_cons_self _ _)
      · intro x hx
        rw [List.mem_cons] at hx
        rcases hx with hx | hx
        · rw [hx]; exact hnin
        · exact fun hs => havoid _ hx (List.mem_cons_of_mem _ hs)

theorem keepFirstByImage_eq_self :
    ∀ (l : List EstafetteStage) (seen : List Str),
      (l.map (fun p => p.containerImage)).Nodup →
      (∀ x ∈ l.map (fun p => p.containerImage), x ∉ seen) →
      keepFirstByImage seen l = l := by
  intro l
  induction l with
  | nil => intro seen _ _; rfl
  | cons p rest ih =>
    intro seen hnd havoid
    rw [List.map_cons, List.nodup_cons] at hnd
    rw [keepFirstByImage, if_neg (havoid p.containerImage (by rw [List.map_cons]; exact List.mem_cons_self _ _))]
    rw [ih (p.containerImage :: seen) hnd.2]
    intro x hx
    rw [List.mem_cons]
    intro hc
    rcases hc with hc | hc
    · rw [hc] at hx; exact hnd.1 hx
    · exact havoid x (by rw [List.map_cons]; exact List.mem_cons_of_mem _ hx) hc

theorem dedupStages_eq_keepFirst (evalW : EstafetteStage → Bool × Option Str)
    (stages : List EstafetteStage) :
    dedupStages evalW stages
      = keepFirstByImage [] (stages.filter (fun p => stageKept (evalW p))) := by
  rw [dedupStages, dedupStagesGo_eq]
  rfl

theorem dedupStages_idem (evalW : EstafetteStage → Bool × Option Str)
    (stages : List EstafetteStage) :
    dedupStages evalW (dedupStages evalW stages) = dedupStages evalW stages := by
  rw [dedupStages_eq_keepFirst, dedupStages_eq_keepFirst]
  have hfilter : (keepFirstByImage [] (stages.filter (fun p => stageKept (evalW p)))).filter
      (fun p => stageKept (evalW p))
      = keepFirstByImage [] (stages.filter (fun p => stageKept (evalW p))) := by
    apply List.filter_eq_self.2
    intro a ha
    exact (List.mem_filter.1 (keepFirstByImage_subset _ _ a ha)).2
  rw [hfilter]
  exact keepFirstByImage_eq_self _ []
    (keepFirstByImage_images (stages.filter (fun p => stageKept (evalW p))) []).1
    (by intro x _; exact List.not_mem_nil x)

/-- Claim C3: the stage selector outputs exactly the stages whose when-clause
evaluation succeeds (nil error) and returns true, retaining only the first
occurrence of each distinct `containerImage` value, in input order. -/
theorem stage_selector_spec {Expr Params : Type}
    (newEvaluableExpression : Str → Except Str Expr)
    (evaluateExpr : Expr → Params → Except Str GoValue)
    (parameters : Params) (stages : List EstafetteStage) :
    dedupStages (mainWhenEval newEvaluableExpression evaluateExpr parameters) stages
      = keepFirstByImage []
          (stages.filter (fun p =>
            decide ((mainWhenEval newEvaluableExpression evaluateExpr parameters p).2 = none
              ∧ (mainWhenEval newEvaluableExpression evaluateExpr parameters p).1 = true))) := by
  rw [dedupStages_eq_keepFirst]
  have hf : (fun p : EstafetteStage =>
        stageKept (mainWhenEval newEvaluableExpression evaluateExpr parameters p))
      = (fun p : EstafetteStage =>
        decide ((mainWhenEval newEvaluableExpression evaluateExpr parameters p).2 = none
          ∧ (mainWhenEval newEvaluableExpression evaluateExpr parameters p).1 = true)) :=
    funext fun p => stageKept_eq _
  rw [hf]

/-- Claim C8: the stage selector is idempotent — running it on its own
output under the same when-clause evaluation context changes nothing. -/
theorem stage_selector_idempotent {Expr Params : Type}
    (newEvaluableExpression : Str → Except Str Expr)
    (evaluateExpr : Expr → Params → Except Str GoValue)
    (parameters : Params) (stages : List EstafetteStage) :
    dedupStages (mainWhenEval newEvaluableExpression evaluateExpr parameters)
        (dedupStages (mainWhenEval newEvaluableExpression evaluateExpr parameters) stages)
      = dedupStages (mainWhenEval newEvaluableExpression evaluateExpr parameters) stages :=
  dedupStages_idem (mainWhenEval newEvaluableExpression evaluateExpr parameters) stages

theorem loginPhase_ok (loginOk : ContainerRegistryCredentials → Bool) :
    ∀ l : List ContainerRegistryCredentials, (∀ c ∈ l, loginOk c = true) →
      loginPhase loginOk l = (l.map (fun c => Event.login c.repository), true) := by
  intro l
  induction l with
  | nil => intro _; rfl
  | cons c rest ih =>
    intro h
    rw [loginPhase, if_pos (h c (List.mem_cons_self c rest))]
    rw [ih (fun x hx => h x (List.mem_cons_of_mem c hx))]
    rfl

theorem loginPhase_fail (loginOk : ContainerRegistryCredentials → Bool) :
    ∀ l : List ContainerRegistryCredentials, (∃ c ∈ l, loginOk c = false) →
      ∃ pre c post, l = pre ++ c :: post ∧ (∀ x ∈ pre, loginOk x = true) ∧ loginOk c = false
        ∧ loginPhase loginOk l
            = ((pre ++ [c]).map (fun x => Event.login x.repository), false) := by
  intro l
  induction l with
  | nil =>
    intro h
    rcases h with ⟨c, hc, _⟩
    exact absurd hc (List.not_mem_nil c)
  | cons a rest ih =>
    intro h
    by_cases ha : loginOk a = true
    · have hrest : ∃ c ∈ rest, loginOk c = false := by
        rcases h with ⟨c, hc, hcf⟩
        rw [List.mem_cons] at hc
        rcases hc with hc | hc
        · exfalso
          rw [hc, ha] at hcf
          exact Bool.noConfusion hcf
        · exact ⟨c, hc, hcf⟩
      rcases ih hrest with ⟨pre, c, post, heq, hpre, hcf, hlp⟩
      refine ⟨a :: pre, c, post, ?_, ?_, hcf, ?_⟩
      · rw [List.cons_append, heq]
      · intro x hx
        rw [List.mem_cons] at hx
        rcases hx with hx | hx
        · rw [hx]; exact ha
        · exact hpre x hx
      · rw [loginPhase, if_pos ha, hlp]
        rfl
    · have ha' : loginOk a = false := by
        cases hE : loginOk a with
        | true => exact absurd hE ha
        | false => rfl
      refine ⟨[], a, rest, rfl, ?_, ha', ?_⟩
      · intro x hx
        exact absurd hx (List.not_mem_nil x)
      · rw [loginPhase, if_neg ha]
        rfl

/-- Claim C1 counterexample: with an empty decoded stage sequence the
process does not exit successfully — the trace is exactly the fatal exit
(`log.Fatal` at src/main.go:63-65), with no successful-exit event. -/
theorem empty_stages_not_accepted_cex :
    runMain (fun _ => Except.ok (0 : Nat)) (fun _ _ => Except.ok (GoValue.bool true)) ()
        (fun _ => true) (fun _ => true) (fun m => m.map Prod.snd) none ([] : List EstafetteStage)
      = [Event.fatalExit]
    ∧ Event.exitOk ∉
        runMain (fun _ => Except.ok (0 : Nat)) (fun _ _ => Except.ok (GoValue.bool true)) ()
          (fun _ => true) (fun _ => true) (fun m => m.map Prod.snd) none ([] : List EstafetteStage) := by
  constructor
  · rfl
  · decide

/-- Claim C1 amended: when the decoded stage sequence is empty, the run
performs zero work — no login and no pull is attempted — but the process
exits fatally (non-zero, via `log.Fatal`), not successfully. -/
theorem empty_stages_fatal {Expr Params : Type}
    (newEvaluableExpression : Str → Except Str Expr)
    (evaluateExpr : Expr → Params → Except Str GoValue) (parameters : Params)
    (loginOk : ContainerRegistryCredentials → Bool) (pullOk : Str → Bool)
    (iterOrder : List (Str × ContainerRegistryCredentials) → List ContainerRegistryCredentials)
    (credentials : Option (List ContainerRegistryCredentials)) :
    runMain newEvaluableExpression evaluateExpr parameters loginOk pullOk iterOrder credentials []
      = [Event.fatalExit] :=
  rfl

/-- Claim C4: if some login fails, the run terminates at the first failing
login — the trace consists of the successful logins before it, the failing
login, and the fatal exit; in particular no pull is ever issued and no
login after the failed one is attempted. -/
theorem login_fail_fast {Expr Params : Type}
    (newEvaluableExpression : Str → Except Str Expr)
    (evaluateExpr : Expr → Params → Except Str GoValue) (parameters : Params)
    (loginOk : ContainerRegistryCredentials → Bool) (pullOk : Str → Bool)
    (iterOrder : List (Str × ContainerRegistryCredentials) → List ContainerRegistryCredentials)
    (credentials : Option (List ContainerRegistryCredentials))
    (stages : List EstafetteStage)
    (hne : stages ≠ [])
    (hfail : ∃ c ∈ iterOrder (getCredentialsForContainers credentials
        ((dedupStages (mainWhenEval newEvaluableExpression evaluateExpr parameters) stages).map
          (fun p => p.containerImage))), loginOk c = false) :
    (∀ img b, Event.pull img b ∉
        runMain newEvaluableExpression evaluateExpr parameters loginOk pullOk iterOrder
          credentials stages)
    ∧ ∃ pre c post,
        iterOrder (getCredentialsForContainers credentials
          ((dedupStages (mainWhenEval newEvaluableExpression evaluateExpr parameters) stages).map
            (fun p => p.containerImage))) = pre ++ c :: post
        ∧ (∀ x ∈ pre, loginOk x = true) ∧ loginOk c = false
        ∧ runMain newEvaluableExpression evaluateExpr parameters loginOk pullOk iterOrder
              credentials stages
            = (pre ++ [c]).map (fun x => Event.login x.repository) ++ [Event.fatalExit] := by
  rcases loginPhase_fail loginOk _ hfail with ⟨pre, c, post, heq, hpre, hcf, hlp⟩
  have hrun : runMain newEvaluableExpression evaluateExpr parameters loginOk pullOk iterOrder
      credentials stages
      = (pre ++ [c]).map (fun x => Event.login x.repository) ++ [Event.fatalExit] := by
    rw [runMain, if_neg hne]
    simp only [hlp]
    simp
  constructor
  · intro img b hmem
    rw [hrun] at hmem
    rcases List.mem_append.1 hmem with hm | hm
    · rcases List.mem_map.1 hm with ⟨x, _, hx⟩
      exact Event.noConfusion hx
    · rw [List.mem_singleton] at hm
      exact Event.noConfusion hm
  · exact ⟨pre, c, post, heq, hpre, hcf, hrun⟩

/-- Claim C4 witness: with one stage, one matching credential and a failing
login command, no pull event occurs in the run's trace. -/
theorem login_fail_fast_witness :
    Event.pull ("r.io/t/app".data) true ∉
      runMain (fun _ => Except.ok (0 : Nat)) (fun _ _ => Except.ok (GoValue.bool true)) ()
        (fun _ => false) (fun _ => true) (fun m => m.map Prod.snd)
        (some (exCred :: [])) (exStage :: []) :=
  (login_fail_fast (fun _ => Except.ok (0 : Nat)) (fun _ _ => Except.ok (GoValue.bool true)) ()
      (fun _ => false) (fun _ => true) (fun m => m.map Prod.snd)
      (some (exCred :: [])) (exStage :: [])
      (by decide) (by decide)).1 ("r.io/t/app".data) true

/-- Claim C5: when every login succeeds, the trace contains a pull event for
every deduplicated stage and ends in a successful exit, for every assignment
of pull outcomes — an individual pull failure aborts nothing and the run
never exits fatally. -/
theorem pull_failure_isolation {Expr Params : Type}
    (newEvaluableExpression : Str → Except Str Expr)
    (evaluateExpr : Expr → Params → Except Str GoValue) (parameters : Params)
    (loginOk : ContainerRegistryCredentials → Bool) (pullOk : Str → Bool)
    (iterOrder : List (Str × ContainerRegistryCredentials) → List ContainerRegistryCredentials)
    (credentials : Option (List ContainerRegistryCredentials))
    (stages : List EstafetteStage)
    (hne : stages ≠ [])
    (hlogin : ∀ c ∈ iterOrder (getCredentialsForContainers credentials
        ((dedupStages (mainWhenEval newEvaluableExpression evaluateExpr parameters) stages).map
          (fun p => p.containerImage))), loginOk c = true) :
    runMain newEvaluableExpression evaluateExpr parameters loginOk pullOk iterOrder
        credentials stages
      = (iterOrder (getCredentialsForContainers credentials
            ((dedupStages (mainWhenEval newEvaluableExpression evaluateExpr parameters) stages).map
              (fun p => p.containerImage)))).map (fun c => Event.login c.repository)
          ++ (dedupStages (mainWhenEval newEvaluableExpression evaluateExpr parameters) stages).map
              (fun p => Event.pull p.containerImage (pullOk p.containerImage))
          ++ [Event.exitOk]
    ∧ (∀ p ∈ dedupStages (mainWhenEval newEvaluableExpression evaluateExpr parameters) stages,
        Event.pull p.containerImage (pullOk p.containerImage) ∈
          runMain newEvaluableExpression evaluateExpr parameters loginOk pullOk iterOrder
            credentials stages)
    ∧ Event.fatalExit ∉
        runMain newEvaluableExpression evaluateExpr parameters loginOk pullOk iterOrder
          credentials stages := by
  have hlp := loginPhase_ok loginOk _ hlogin
  have hrun : runMain newEvaluableExpression evaluateExpr parameters loginOk pullOk iterOrder
      credentials stages
      = (iterOrder (getCredentialsForContainers credentials
            ((dedupStages (mainWhenEval newEvaluableExpression evaluateExpr parameters) stages).map
              (fun p => p.containerImage)))).map (fun c => Event.login c.repository)
          ++ (dedupStages (mainWhenEval newEvaluableExpression evaluateExpr parameters) stages).map
              (fun p => Event.pull p.containerImage (pullOk p.containerImage))
          ++ [Event.exitOk] := by
    rw [runMain, if_neg hne]
    simp only [hlp]
    simp [List.append_assoc]
  refine ⟨hrun, ?_, ?_⟩
  · intro p hp
    rw [hrun]
    rw [List.mem_append]
    left
    rw [List.mem_append]
    right
    exact List.mem_map.2 ⟨p, hp, rfl⟩
  · rw [hrun]
    intro hmem
    rcases List.mem_append.1 hmem with hm | hm
    · rcases List.mem_append.1 hm with hm' | hm'
      · rcases List.mem_map.1 hm' with ⟨x, _, hx⟩
        exact Event.noConfusion hx
      · rcases List.mem_map.1 hm' with ⟨x, _, hx⟩
        exact Event.noConfusion hx
    · rw [List.mem_singleton] at hm
      exact Event.noConfusion hm

/-- Claim C5 witness: with one stage, a succeeding login and a failing pull
command, the pull event still occurs and the trace has no fatal exit. -/
theorem pull_failure_isolation_witness :
    Event.pull ("r.io/t/app".data) false ∈
      runMain (fun _ => Except.ok (0 : Nat)) (fun _ _ => Except.ok (GoValue.bool true)) ()
        (fun _ => true) (fun _ => false) (fun m => m.map Prod.snd)
        (some (exCred :: [])) (exStage :: [])
    ∧ Event.fatalExit ∉
        runMain (fun _ => Except.ok (0 : Nat)) (fun _ _ => Except.ok (GoValue.bool true)) ()
          (fun _ => true) (fun _ => false) (fun m => m.map Prod.snd)
          (some (exCred :: [])) (exStage :: []) := by
  have h := pull_failure_isolation (fun _ => Except.ok (0 : Nat))
    (fun _ _ => Except.ok (GoValue.bool true)) ()
    (fun _ => true) (fun _ => false) (fun m => m.map Prod.snd)
    (some (exCred :: [])) (exStage :: []) (by decide) (by decide)
  exact ⟨h.2.1 exStage (by decide), h.2.2⟩

/-- Claim C7: the condition evaluator returns a non-nil error exactly when
the expression string is empty, the compile step fails, or the evaluation
does not produce a boolean value; whenever the expression compiles and
evaluates to a boolean, that boolean is returned with nil error. -/
theorem evaluateWhen_spec {Expr Params : Type}
    (newEvaluableExpression : Str → Except Str Expr)
    (evaluateExpr : Expr → Params → Except Str GoValue)
    (pipelineName input : Str) (parameters : Params) :
    (((evaluateWhen newEvaluableExpression evaluateExpr pipelineName input parameters).2).isSome = true
      ↔ (input = []
        ∨ (∃ e, newEvaluableExpression input = Except.error e)
        ∨ (∃ ex, newEvaluableExpression input = Except.ok ex
            ∧ ∀ b, evaluateExpr ex parameters ≠ Except.ok (GoValue.bool b))))
    ∧ (∀ ex b, input ≠ [] → newEvaluableExpression input = Except.ok ex →
        evaluateExpr ex parameters = Except.ok (GoValue.bool b) →
        evaluateWhen newEvaluableExpression evaluateExpr pipelineName input parameters
          = (b, none)) := by
  constructor
  · by_cases hin : input = []
    · simp [evaluateWhen, hin]
    · rw [evaluateWhen, if_neg hin]
      cases hc : newEvaluableExpression input with
      | error e =>
        constructor
        · intro _
          exact Or.inr (Or.inl ⟨e, rfl⟩)
        · intro _
          rfl
      | ok ex =>
        dsimp only
        cases he : evaluateExpr ex parameters with
        | error er =>
          constructor
          · intro _
            refine Or.inr (Or.inr ⟨ex, rfl, ?_⟩)
            intro b hb
            rw [he] at hb
            exact Except.noConfusion hb
          · intro _
            rfl
        | ok v =>
          cases v with
          | bool b =>
            constructor
            · intro hfalse
              exact Bool.noConfusion hfalse
            · intro h
              rcases h with h | h | h
              · exact absurd h hin
              · rcases h with ⟨e, he'⟩
                exact Except.noConfusion he'
              · rcases h with ⟨ex', hex, hall⟩
                have hxx : ex' = ex := by
                  injection hex with hxx
                  exact hxx.symm
                rw [hxx] at hall
                exact absurd he (hall b)
          | other =>
            constructor
            · intro _
              refine Or.inr (Or.inr ⟨ex, rfl, ?_⟩)
              intro b hb
              rw [he] at hb
              injection hb with hb
              exact GoValue.noConfusion hb
            · intro _
              rfl
  · intro ex b hin hc he
    rw [evaluateWhen, if_neg hin]
    simp only [hc, he]

/-- Claim C7 witness: a non-empty expression that compiles and evaluates to
the boolean true is returned as true with nil error. -/
theorem evaluateWhen_spec_witness :
    evaluateWhen (fun _ => Except.ok (0 : Nat)) (fun _ _ => Except.ok (GoValue.bool true))
        ("n".data) ("x".data) () = (true, none) :=
  (evaluateWhen_spec (fun _ => Except.ok (0 : Nat)) (fun _ _ => Except.ok (GoValue.bool true))
      ("n".data) ("x".data) ()).2 0 true (by decide) rfl rfl

end Prefetch
